import Mathlib

/-!
Verification of the graphql-document-composer build pipeline (src/app.ts).

The development shallowly embeds the pipeline's data model and operations:
the parsed-document AST fragments the code inspects, the dependency
classifier (`hasExtensionsFor`, `hasTypesFor`, `isDependentOn`), the
reference extraction performed inside `hasTypesFor`, the file filter and
watch callback, the schema-assembly fold, and the validation/emit stage.
The topological orderer and duplicate-node handling live in the external
dependency-graph npm package whose source is not part of the repository;
those two pieces are modelled from the specification and are marked as
such in their doc comments.
-/

/-- A type reference in schema syntax: a named type possibly wrapped in
List/NonNull wrappers (graphql-js `TypeNode`). -/
inductive TypeNode
  | namedType (name : String)
  | listType (ofType : TypeNode)
  | nonNullType (ofType : TypeNode)
deriving DecidableEq

/-- Mirrors `unwrap(typeNode).name.value` from app.ts (lines 56-58):
`unwrap` recursively strips List/NonNull wrappers until it reaches the
NamedType node, whose `.name.value` is then read at every call site. -/
def unwrapName : TypeNode → String
  | .namedType name => name
  | .listType ofType => unwrapName ofType
  | .nonNullType ofType => unwrapName ofType

/-- An argument or input-object field (graphql-js `InputValueDefinitionNode`,
kind "InputValueDefinition"). Directives are kept as the names the code
reads via `directive.name.value`. -/
structure InputValueDefinitionNode where
  name : String
  type : TypeNode
  directives : List String
deriving DecidableEq

/-- An output field (graphql-js `FieldDefinitionNode`, kind "FieldDefinition"). -/
structure FieldDefinitionNode where
  name : String
  arguments : List InputValueDefinitionNode
  type : TypeNode
  directives : List String
deriving DecidableEq

/-- An enum value (graphql-js `EnumValueDefinitionNode`). -/
structure EnumValueDefinitionNode where
  name : String
  directives : List String
deriving DecidableEq

/-- The top-level type-system constructs a parsed schema document holds,
restricted to the fields app.ts reads. Union members are kept as `TypeNode`
because the code calls `unwrap` on them; interface lists are the
`.name.value` strings the code reads directly. -/
inductive DefinitionNode
  | schemaDefinition (directives : List String)
  | directiveDefinition (name : String)
  | scalarTypeDefinition (name : String) (directives : List String)
  | objectTypeDefinition (name : String) (interfaces : List String)
      (directives : List String) (fields : List FieldDefinitionNode)
  | interfaceTypeDefinition (name : String) (directives : List String)
      (fields : List FieldDefinitionNode)
  | unionTypeDefinition (name : String) (directives : List String)
      (types : List TypeNode)
  | enumTypeDefinition (name : String) (directives : List String)
      (values : List EnumValueDefinitionNode)
  | inputObjectTypeDefinition (name : String) (directives : List String)
      (fields : List InputValueDefinitionNode)
  | schemaExtension (directives : List String)
  | scalarTypeExtension (name : String) (directives : List String)
  | objectTypeExtension (name : String) (interfaces : List String)
      (directives : List String) (fields : List FieldDefinitionNode)
  | interfaceTypeExtension (name : String) (directives : List String)
      (fields : List FieldDefinitionNode)
  | unionTypeExtension (name : String) (directives : List String)
      (types : List TypeNode)
  | enumTypeExtension (name : String) (directives : List String)
      (values : List EnumValueDefinitionNode)
  | inputObjectTypeExtension (name : String) (directives : List String)
      (fields : List InputValueDefinitionNode)
deriving DecidableEq

/-- The graphql-js `kind` tag of a definition node. -/
def DefinitionNode.kind : DefinitionNode → String
  | .schemaDefinition _ => "SchemaDefinition"
  | .directiveDefinition _ => "DirectiveDefinition"
  | .scalarTypeDefinition _ _ => "ScalarTypeDefinition"
  | .objectTypeDefinition _ _ _ _ => "ObjectTypeDefinition"
  | .interfaceTypeDefinition _ _ _ => "InterfaceTypeDefinition"
  | .unionTypeDefinition _ _ _ => "UnionTypeDefinition"
  | .enumTypeDefinition _ _ _ => "EnumTypeDefinition"
  | .inputObjectTypeDefinition _ _ _ => "InputObjectTypeDefinition"
  | .schemaExtension _ => "SchemaExtension"
  | .scalarTypeExtension _ _ => "ScalarTypeExtension"
  | .objectTypeExtension _ _ _ _ => "ObjectTypeExtension"
  | .interfaceTypeExtension _ _ _ => "InterfaceTypeExtension"
  | .unionTypeExtension _ _ _ => "UnionTypeExtension"
  | .enumTypeExtension _ _ _ => "EnumTypeExtension"
  | .inputObjectTypeExtension _ _ _ => "InputObjectTypeExtension"

/-- The `.name.value` the code reads off a definition node; schema
definitions and schema extensions are anonymous. -/
def DefinitionNode.nameValue : DefinitionNode → Option String
  | .schemaDefinition _ => none
  | .schemaExtension _ => none
  | .directiveDefinition name => some name
  | .scalarTypeDefinition name _ => some name
  | .objectTypeDefinition name _ _ _ => some name
  | .interfaceTypeDefinition name _ _ => some name
  | .unionTypeDefinition name _ _ => some name
  | .enumTypeDefinition name _ _ => some name
  | .inputObjectTypeDefinition name _ _ => some name
  | .scalarTypeExtension name _ => some name
  | .objectTypeExtension name _ _ _ => some name
  | .interfaceTypeExtension name _ _ => some name
  | .unionTypeExtension name _ _ => some name
  | .enumTypeExtension name _ _ => some name
  | .inputObjectTypeExtension name _ _ => some name

/-- Mirrors graphql-js `isTypeDefinitionNode`: the six named type
definitions (not extensions, not schema/directive definitions). -/
def isTypeDefinitionNode : DefinitionNode → Bool
  | .scalarTypeDefinition _ _ => true
  | .objectTypeDefinition _ _ _ _ => true
  | .interfaceTypeDefinition _ _ _ => true
  | .unionTypeDefinition _ _ _ => true
  | .enumTypeDefinition _ _ _ => true
  | .inputObjectTypeDefinition _ _ _ => true
  | _ => false

/-- Mirrors graphql-js `isTypeSystemDefinitionNode`: schema definition,
directive definition, or any type definition. -/
def isTypeSystemDefinitionNode : DefinitionNode → Bool
  | .schemaDefinition _ => true
  | .directiveDefinition _ => true
  | d => isTypeDefinitionNode d

/-- Mirrors graphql-js `isTypeSystemExtensionNode`: schema extension or
any type extension. -/
def isTypeSystemExtensionNode : DefinitionNode → Bool
  | .schemaExtension _ => true
  | .scalarTypeExtension _ _ => true
  | .objectTypeExtension _ _ _ _ => true
  | .interfaceTypeExtension _ _ _ => true
  | .unionTypeExtension _ _ _ => true
  | .enumTypeExtension _ _ _ => true
  | .inputObjectTypeExtension _ _ _ => true
  | _ => false

/-- A parsed document: `loc.source.name` (its path relative to the source
root) together with its top-level definitions. -/
structure DocumentNode where
  name : String
  definitions : List DefinitionNode
deriving DecidableEq

/-- Group 1 of the regex `^(.+)Definition$` applied to a definition kind
string in app.ts (line 63); the greedy `.+` captures everything before the
trailing "Definition". -/
def definitionStem (kind : String) : String := kind.dropRight "Definition".length

/-- Group 1 of the regex `^(.+)Extension$` applied to an extension kind
string in app.ts (line 64). -/
def extensionStem (kind : String) : String := kind.dropRight "Extension".length

/-- Mirrors `hasExtensionsFor` (app.ts lines 60-78): for every type-system
extension of documentA paired with every type-system definition of
documentB, succeed if both are schema-kinded, or if the kind stems agree
and the extension's target name equals the definition's name. -/
def hasExtensionsFor (documentA documentB : DocumentNode) : Bool :=
  (documentA.definitions.filter isTypeSystemExtensionNode).any fun typeSystemExtensionNode =>
    (documentB.definitions.filter isTypeSystemDefinitionNode).any fun typeSystemDefinitionNode =>
      let typeDefinitionMatch := definitionStem typeSystemDefinitionNode.kind
      let typeExtensionMatch := extensionStem typeSystemExtensionNode.kind
      (typeDefinitionMatch == "Schema" && typeExtensionMatch == "Schema")
        || (typeDefinitionMatch == typeExtensionMatch
            && typeSystemDefinitionNode.nameValue == typeSystemExtensionNode.nameValue)

/-- The `typeNames` entries one definition contributes inside the
`hasTypesFor` loop (app.ts lines 84-116): implemented interfaces of object
definitions/extensions, then per output field its argument types (unwrapped)
followed by its own type (unwrapped), input-object field types (their kind
is "InputValueDefinition", so the argument branch does not fire), and union
member types (unwrapped). -/
def definitionTypeRefs : DefinitionNode → List String
  | .objectTypeDefinition _ interfaces _ fields =>
      interfaces ++ fields.flatMap fun field =>
        field.arguments.map (fun argument => unwrapName argument.type) ++ [unwrapName field.type]
  | .objectTypeExtension _ interfaces _ fields =>
      interfaces ++ fields.flatMap fun field =>
        field.arguments.map (fun argument => unwrapName argument.type) ++ [unwrapName field.type]
  | .interfaceTypeDefinition _ _ fields =>
      fields.flatMap fun field =>
        field.arguments.map (fun argument => unwrapName argument.type) ++ [unwrapName field.type]
  | .interfaceTypeExtension _ _ fields =>
      fields.flatMap fun field =>
        field.arguments.map (fun argument => unwrapName argument.type) ++ [unwrapName field.type]
  | .inputObjectTypeDefinition _ _ fields => fields.map fun field => unwrapName field.type
  | .inputObjectTypeExtension _ _ fields => fields.map fun field => unwrapName field.type
  | .unionTypeDefinition _ _ types => types.map unwrapName
  | .unionTypeExtension _ _ types => types.map unwrapName
  | _ => []

/-- The `directiveNames` entries one definition contributes inside the
`hasTypesFor` loop (app.ts lines 84-116): the definition's own directives
when it is a type definition (`isTypeDefinitionNode`; extensions and
schema/directive definitions are skipped), then field-level directives of
object/interface/input-object definitions and extensions, then enum value
directives of enum definitions and extensions. -/
def definitionDirectiveRefs : DefinitionNode → List String
  | .scalarTypeDefinition _ directives => directives
  | .objectTypeDefinition _ _ directives fields =>
      directives ++ fields.flatMap (fun field => field.directives)
  | .interfaceTypeDefinition _ directives fields =>
      directives ++ fields.flatMap (fun field => field.directives)
  | .unionTypeDefinition _ directives _ => directives
  | .enumTypeDefinition _ directives values =>
      directives ++ values.flatMap (fun value => value.directives)
  | .inputObjectTypeDefinition _ directives fields =>
      directives ++ fields.flatMap (fun field => field.directives)
  | .objectTypeExtension _ _ _ fields => fields.flatMap (fun field => field.directives)
  | .interfaceTypeExtension _ _ fields => fields.flatMap (fun field => field.directives)
  | .inputObjectTypeExtension _ _ fields => fields.flatMap (fun field => field.directives)
  | .enumTypeExtension _ _ values => values.flatMap (fun value => value.directives)
  | _ => []

/-- The reference extraction performed by the loop at the top of
`hasTypesFor` (app.ts lines 81-116): the `typeNames` and `directiveNames`
arrays accumulated across documentA's definitions in document order. -/
def collectReferences (documentA : DocumentNode) : List String × List String :=
  documentA.definitions.foldl
    (fun acc definition =>
      (acc.1 ++ definitionTypeRefs definition, acc.2 ++ definitionDirectiveRefs definition))
    ([], [])

/-- Mirrors `hasTypesFor` (app.ts lines 80-131): after extracting
documentA's references, succeed if some directive definition of documentB
has its name among `directiveNames`, or some type definition of documentB
has its name among `typeNames`. -/
def hasTypesFor (documentA documentB : DocumentNode) : Bool :=
  let typeNames := (collectReferences documentA).1
  let directiveNames := (collectReferences documentA).2
  ((documentB.definitions.filter fun definition => definition.kind == "DirectiveDefinition").any
      fun directive => directiveNames.any fun name => some name == directive.nameValue)
    || ((documentB.definitions.filter isTypeDefinitionNode).any
      fun type => typeNames.any fun name => some name == type.nameValue)

/-- Mirrors `isDependentOn` (app.ts lines 133-135). -/
def isDependentOn (documentA documentB : DocumentNode) : Bool :=
  hasExtensionsFor documentA documentB || hasTypesFor documentA documentB

/-- Mirrors `fileFilter` (app.ts line 137), the regex test
`^.*\.g(raph)?ql$` with the case-insensitive flag: the file name ends in
".graphql" or ".gql" when compared case-insensitively. Modelled over the
file name's character list, with per-character lowercasing standing in for
the regex's i flag. -/
def fileFilter (fileName : String) : Bool :=
  ".graphql".data.isSuffixOf (fileName.data.map Char.toLower)
    || ".gql".data.isSuffixOf (fileName.data.map Char.toLower)

/-- Mirrors the fs.watch callback (app.ts lines 205-212): it returns early
(no rebuild) exactly when `fileFilter` matches the changed file name, and
invokes `start()` (a rebuild) otherwise. -/
def watchCallbackRebuilds (filename : String) : Bool :=
  if fileFilter filename then false else true

/-- The dependency edges registered by `build` (app.ts lines 157-163): for
each documentA, an edge to each documentB whose name differs and on which
documentA is dependent; `graph.addDependency` is called with
(dependent name, dependency name). -/
def dependencyEdges (documents : List DocumentNode) : List (String × String) :=
  documents.flatMap fun documentA =>
    (documents.filter fun documentB =>
        documentB.name != documentA.name && isDependentOn documentA documentB).map
      fun documentB => (documentA.name, documentB.name)

/-- The edge relation of the dependency graph on document names:
`depFn documents a b` holds when the graph records "a must be merged after
b". -/
def depFn (documents : List DocumentNode) (a b : String) : Bool :=
  (dependencyEdges documents).contains (a, b)

/-- Whether node `n` may be ordered next: no dependency of `n` is still
among the unordered nodes. -/
def ready (dep : String → String → Bool) (remaining : List String) (n : String) : Bool :=
  remaining.all fun m => !(dep n m)

/-- Modelled from the spec: the topological orderer (spec 4.4). The
repository delegates ordering to `DepGraph.overallOrder` of the external
dependency-graph npm package, whose source is not among the repository
files; per the spec the orderer produces a MergeOrder consistent with all
edges, fails on cycles with an error naming the implicated documents, and
breaks ties by original discovery order. This model repeatedly emits the
first remaining node (in discovery order) none of whose dependencies is
still unordered, and fails with the list of still-unordered (implicated)
nodes when no node can be emitted. The fuel equals the initial node count,
which bounds the number of emissions. -/
def topoOrderAux (dep : String → String → Bool) :
    Nat → List String → Except (List String) (List String)
  | 0, remaining => if remaining.isEmpty then .ok [] else .error remaining
  | fuel + 1, remaining =>
    match remaining.find? (ready dep remaining) with
    | none => if remaining.isEmpty then .ok [] else .error remaining
    | some n =>
      match topoOrderAux dep fuel (remaining.erase n) with
      | .ok order => .ok (n :: order)
      | .error implicated => .error implicated

/-- Modelled from the spec: entry point of the topological orderer over
the discovery-ordered node list (see `topoOrderAux`). -/
def topoOrder (dep : String → String → Bool) (nodes : List String) :
    Except (List String) (List String) :=
  topoOrderAux dep nodes.length nodes

/-- The schema values producible by the underlying schema primitives,
kept symbolic: a from-scratch build of a document, or an extension of an
accumulated (possibly null) schema with a document. -/
inductive SchemaExpr
  | buildASTSchema (document : DocumentNode)
  | extendSchema (schema : Option SchemaExpr) (document : DocumentNode)

/-- Mirrors the reduce at app.ts lines 165-176: the accumulator starts as
null; at index 0 the document is built from scratch, at every later index
the accumulated schema is extended with the document. -/
def assembleFrom (schema : Option SchemaExpr) (index : Nat) :
    List DocumentNode → Option SchemaExpr
  | [] => schema
  | document :: rest =>
    assembleFrom
      (if index == 0 then some (.buildASTSchema document)
       else some (.extendSchema schema document))
      (index + 1) rest

/-- The schema-assembly fold over the ordered documents (app.ts lines
165-176). -/
def assembleSchema (documents : List DocumentNode) : Option SchemaExpr :=
  assembleFrom none 0 documents

/-- Mirrors `graph.getNodeData` mapping at app.ts line 166: each ordered
node name is replaced by the document stored under that name. -/
def orderedDocuments (documents : List DocumentNode) (order : List String) :
    List DocumentNode :=
  order.filterMap fun nodeName => documents.find? fun document => document.name == nodeName

/-- Outcome of one build pass. `validationFailure` carries every collected
violation message (each is reported and the process exits non-zero);
`written` carries the printed schema text written to the output file. -/
inductive BuildResult
  | duplicateNameError
  | cycleError (implicated : List String)
  | validationFailure (messages : List String)
  | written (content : String)

/-- Mirrors the validation/output stage (app.ts lines 180-192): a
non-empty validation result reports every message and exits with failure
before any write; only an empty result reaches the file write. -/
def emitStage (validationErrors : List String) (printed : String) : BuildResult :=
  if validationErrors.length != 0 then .validationFailure validationErrors
  else .written printed

/-- One build pass over the already-parsed documents (app.ts lines
139-193), with the external schema primitives `validateSchema` and
`printSchema` as parameters. The duplicate-name check stands in for
`graph.addNode` keyed by name, modelled from the spec (spec 4.3: duplicate
names across distinct documents are a fatal configuration error, detected
fail-fast), since the node-store implementation lives in the external
dependency-graph package. -/
def buildPipeline (validateSchema : Option SchemaExpr → List String)
    (printSchema : Option SchemaExpr → String)
    (documents : List DocumentNode) : BuildResult :=
  let names := documents.map DocumentNode.name
  if names.Nodup then
    match topoOrder (depFn documents) names with
    | .error implicated => .cycleError implicated
    | .ok order =>
      let schema := assembleSchema (orderedDocuments documents order)
      emitStage (validateSchema schema) (printSchema schema)
  else .duplicateNameError

/-! ### Concrete documents used by the witnesses -/

/-- Scenario C, first document: defines type X and extends type Y. -/
def docX : DocumentNode :=
  ⟨"x.graphql", [.objectTypeDefinition "X" [] [] [], .objectTypeExtension "Y" [] [] []]⟩

/-- Scenario C, second document: defines type Y and extends type X. -/
def docY : DocumentNode :=
  ⟨"y.graphql", [.objectTypeDefinition "Y" [] [] [], .objectTypeExtension "X" [] [] []]⟩

/-- Scenario A, base document: defines type Query with field ping. -/
def docBase : DocumentNode :=
  ⟨"base.graphql",
    [.objectTypeDefinition "Query" [] [] [⟨"ping", [], .namedType "String", []⟩]]⟩

/-- Scenario A, extending document: extends Query with field pong. -/
def docExt : DocumentNode :=
  ⟨"ext.graphql", [.objectTypeExtension "Query" [] [] [⟨"pong", [], .namedType "String", []⟩]]⟩

/-- A one-document corpus declaring scalar S. -/
def docScalarS : DocumentNode := ⟨"a.graphql", [.scalarTypeDefinition "S" []]⟩

/-- A one-document corpus with the same name declaring scalar T instead. -/
def docScalarT : DocumentNode := ⟨"a.graphql", [.scalarTypeDefinition "T" []]⟩

/-! ### Spec-side definitions for the refinement claims -/

/-- The explicit type-system categories named by the spec (type, interface,
input, enum, union, scalar, plus directive for directive definitions). -/
inductive TypeSystemCategory
  | scalarCategory | objectCategory | interfaceCategory | unionCategory
  | enumCategory | inputObjectCategory | directiveCategory
deriving DecidableEq, Fintype

/-- The category of a named type-system definition (none for schema
definitions and for extensions). -/
def definitionCategory : DefinitionNode → Option TypeSystemCategory
  | .directiveDefinition _ => some .directiveCategory
  | .scalarTypeDefinition _ _ => some .scalarCategory
  | .objectTypeDefinition _ _ _ _ => some .objectCategory
  | .interfaceTypeDefinition _ _ _ => some .interfaceCategory
  | .unionTypeDefinition _ _ _ => some .unionCategory
  | .enumTypeDefinition _ _ _ => some .enumCategory
  | .inputObjectTypeDefinition _ _ _ => some .inputObjectCategory
  | _ => none

/-- The category of a type extension (none for schema extensions and for
definitions). -/
def extensionCategory : DefinitionNode → Option TypeSystemCategory
  | .scalarTypeExtension _ _ => some .scalarCategory
  | .objectTypeExtension _ _ _ _ => some .objectCategory
  | .interfaceTypeExtension _ _ _ => some .interfaceCategory
  | .unionTypeExtension _ _ _ => some .unionCategory
  | .enumTypeExtension _ _ _ => some .enumCategory
  | .inputObjectTypeExtension _ _ _ => some .inputObjectCategory
  | _ => none

/-- The claim's reading of hasExtensionsFor: documentA declares a schema
extension and documentB a schema definition (names irrelevant), or
documentA declares a type/directive extension whose category and target
name match a same-category definition of documentB. -/
def SpecHasExtensionsFor (documentA documentB : DocumentNode) : Prop :=
  ((∃ e ∈ documentA.definitions, e.kind = "SchemaExtension")
      ∧ ∃ d ∈ documentB.definitions, d.kind = "SchemaDefinition")
    ∨ ∃ e ∈ documentA.definitions, ∃ d ∈ documentB.definitions,
        ∃ c, extensionCategory e = some c ∧ definitionCategory d = some c
          ∧ ∃ n, e.nameValue = some n ∧ d.nameValue = some n

/-- The implemented-interface lists the claim attributes to object
definitions and extensions. -/
def objectInterfacesOf : DefinitionNode → List String
  | .objectTypeDefinition _ interfaces _ _ => interfaces
  | .objectTypeExtension _ interfaces _ _ => interfaces
  | _ => []

/-- The output fields of object/interface definitions and extensions. -/
def outputFieldsOf : DefinitionNode → List FieldDefinitionNode
  | .objectTypeDefinition _ _ _ fields => fields
  | .objectTypeExtension _ _ _ fields => fields
  | .interfaceTypeDefinition _ _ fields => fields
  | .interfaceTypeExtension _ _ fields => fields
  | _ => []

/-- The fields of input-object definitions and extensions. -/
def inputFieldsOf : DefinitionNode → List InputValueDefinitionNode
  | .inputObjectTypeDefinition _ _ fields => fields
  | .inputObjectTypeExtension _ _ fields => fields
  | _ => []

/-- The members of union definitions and extensions. -/
def unionMembersOf : DefinitionNode → List TypeNode
  | .unionTypeDefinition _ _ types => types
  | .unionTypeExtension _ _ types => types
  | _ => []

/-- The values of enum definitions and extensions. -/
def enumValuesOf : DefinitionNode → List EnumValueDefinitionNode
  | .enumTypeDefinition _ _ values => values
  | .enumTypeExtension _ _ values => values
  | _ => []

/-- The directives applied on a type-shaped definition (the six type
definitions; extensions carry none per the claim). -/
def typeDefinitionDirectivesOf : DefinitionNode → List String
  | .scalarTypeDefinition _ directives => directives
  | .objectTypeDefinition _ _ directives _ => directives
  | .interfaceTypeDefinition _ directives _ => directives
  | .unionTypeDefinition _ directives _ => directives
  | .enumTypeDefinition _ directives _ => directives
  | .inputObjectTypeDefinition _ directives _ => directives
  | _ => []

/-- The claim's description of the typeNames set: unwrapped field and
field-argument types of object/interface/input-object definitions and
extensions, implemented interfaces of object definitions and extensions,
and unwrapped union members. -/
def SpecTypeRef (document : DocumentNode) (n : String) : Prop :=
  ∃ d ∈ document.definitions,
    n ∈ objectInterfacesOf d
      ∨ (∃ f ∈ outputFieldsOf d,
          (∃ a ∈ f.arguments, unwrapName a.type = n) ∨ n = unwrapName f.type)
      ∨ (∃ v ∈ inputFieldsOf d, unwrapName v.type = n)
      ∨ (∃ t ∈ unionMembersOf d, unwrapName t = n)

/-- The claim's description of the directiveNames set: directives on
type-shaped definitions, field-level directives, and directives on enum
values of enum definitions and extensions. -/
def SpecDirectiveRef (document : DocumentNode) (n : String) : Prop :=
  ∃ d ∈ document.definitions,
    n ∈ typeDefinitionDirectivesOf d
      ∨ (∃ f ∈ outputFieldsOf d, n ∈ f.directives)
      ∨ (∃ v ∈ inputFieldsOf d, n ∈ v.directives)
      ∨ (∃ v ∈ enumValuesOf d, n ∈ v.directives)

/-! ### Properties of the topological orderer -/

/-- A successful ordering is a permutation of the nodes it was given. -/
theorem topoOrderAux_ok_perm {dep : String → String → Bool} :
    ∀ (fuel : Nat) {remaining order : List String},
      topoOrderAux dep fuel remaining = .ok order → order.Perm remaining := by
  intro fuel
  induction fuel with
  | zero =>
    intro remaining order h
    simp only [topoOrderAux] at h
    split at h
    · next hemp =>
      cases h
      rw [List.isEmpty_iff] at hemp
      simp [hemp]
    · cases h
  | succ fuel ih =>
    intro remaining order h
    simp only [topoOrderAux] at h
    split at h
    · split at h
      · next hemp =>
        cases h
        rw [List.isEmpty_iff] at hemp
        simp [hemp]
      · cases h
    · next n hf =>
      split at h
      · next order' hrec =>
        cases h
        have hn : n ∈ remaining := List.mem_of_find?_eq_some hf
        exact ((ih hrec).cons n).trans (List.perm_cons_erase hn).symm
      · cases h

/-- The node picked by `find?` has no dependency left among the remaining
nodes. -/
theorem ready_of_find? {dep : String → String → Bool} {remaining : List String} {n : String}
    (hf : remaining.find? (ready dep remaining) = some n) :
    ∀ m ∈ remaining, dep n m = false := by
  have h := List.find?_some hf
  simp only [ready, List.all_eq_true, Bool.not_eq_true'] at h
  exact h

/-- In a successful ordering no node depends on a node emitted after it. -/
theorem topoOrderAux_ok_pairwise {dep : String → String → Bool} :
    ∀ (fuel : Nat) {remaining order : List String},
      topoOrderAux dep fuel remaining = .ok order →
      order.Pairwise (fun x y => dep x y = false) := by
  intro fuel
  induction fuel with
  | zero =>
    intro remaining order h
    simp only [topoOrderAux] at h
    split at h
    · cases h; exact List.Pairwise.nil
    · cases h
  | succ fuel ih =>
    intro remaining order h
    simp only [topoOrderAux] at h
    split at h
    · split at h
      · cases h; exact List.Pairwise.nil
      · cases h
    · next n hf =>
      split at h
      · next order' hrec =>
        cases h
        refine List.Pairwise.cons ?_ (ih hrec)
        intro y hy
        have hy' : y ∈ remaining :=
          List.mem_of_mem_erase ((topoOrderAux_ok_perm fuel hrec).mem_iff.mp hy)
        exact ready_of_find? hf y hy'
      · cases h

/-- No node of a successful ordering depends on itself. -/
theorem topoOrderAux_ok_no_self {dep : String → String → Bool} :
    ∀ (fuel : Nat) {remaining order : List String},
      topoOrderAux dep fuel remaining = .ok order →
      ∀ a ∈ order, dep a a = false := by
  intro fuel
  induction fuel with
  | zero =>
    intro remaining order h
    simp only [topoOrderAux] at h
    split at h
    · cases h; intro a ha; cases ha
    · cases h
  | succ fuel ih =>
    intro remaining order h
    simp only [topoOrderAux] at h
    split at h
    · split at h
      · cases h; intro a ha; cases ha
      · cases h
    · next n hf =>
      split at h
      · next order' hrec =>
        cases h
        intro a ha
        rcases List.mem_cons.mp ha with rfl | ha'
        · exact ready_of_find? hf a (List.mem_of_find?_eq_some hf)
        · exact ih hrec a ha'
      · cases h

/-- A set of nodes each of which depends on another node of the set is
never emitted: the orderer fails and every node of the set is among the
implicated nodes it reports. -/
theorem topoOrderAux_cycle_error {dep : String → String → Bool} {S : List String}
    (hne : S ≠ []) (hsucc : ∀ x ∈ S, ∃ y ∈ S, dep x y = true) :
    ∀ (fuel : Nat) {remaining : List String}, (∀ x ∈ S, x ∈ remaining) →
      ∃ implicated, topoOrderAux dep fuel remaining = .error implicated
        ∧ ∀ x ∈ S, x ∈ implicated := by
  have hrem_ne : ∀ {remaining : List String}, (∀ x ∈ S, x ∈ remaining) →
      remaining.isEmpty = false := by
    intro remaining hsub
    rcases List.exists_mem_of_ne_nil S hne with ⟨s, hs⟩
    rcases remaining with _ | _
    · exact absurd (hsub s hs) (List.not_mem_nil s)
    · rfl
  intro fuel
  induction fuel with
  | zero =>
    intro remaining hsub
    refine ⟨remaining, ?_, hsub⟩
    simp [topoOrderAux, hrem_ne hsub]
  | succ fuel ih =>
    intro remaining hsub
    cases hf : remaining.find? (ready dep remaining) with
    | none =>
      refine ⟨remaining, ?_, hsub⟩
      simp [topoOrderAux, hf, hrem_ne hsub]
    | some n =>
      have hn_not : n ∉ S := by
        intro hn
        rcases hsucc n hn with ⟨y, hy, hdep⟩
        have := ready_of_find? hf y (hsub y hy)
        rw [hdep] at this
        cases this
      have hsub' : ∀ x ∈ S, x ∈ remaining.erase n := by
        intro x hx
        have hxn : x ≠ n := fun h => hn_not (h ▸ hx)
        exact (List.mem_erase_of_ne hxn).mpr (hsub x hx)
      rcases ih hsub' with ⟨implicated, heq, himp⟩
      refine ⟨implicated, ?_, himp⟩
      simp only [topoOrderAux, hf, heq]

/-- In a list without forward dependencies (and without self-dependencies
among its members), the target of a dependency sits strictly earlier than
its source. -/
theorem pairwise_indexOf_lt {dep : String → String → Bool} :
    ∀ (l : List String), l.Pairwise (fun x y => dep x y = false) →
      (∀ x ∈ l, dep x x = false) →
      ∀ {a b : String}, dep a b = true → a ∈ l → b ∈ l →
        l.indexOf b < l.indexOf a := by
  intro l
  induction l with
  | nil => intro _ _ a b _ ha; cases ha
  | cons hd tl ih =>
    intro hpw hself a b hdep ha hb
    rcases List.pairwise_cons.mp hpw with ⟨hhd, htl⟩
    by_cases hah : a = hd
    · rcases List.mem_cons.mp hb with hbh | hb2
      · rw [hah, hbh] at hdep
        rw [hself hd (List.mem_cons_self hd tl)] at hdep
        cases hdep
      · rw [hah] at hdep
        rw [hhd b hb2] at hdep
        cases hdep
    · have ha2 : a ∈ tl := (List.mem_cons.mp ha).resolve_left hah
      by_cases hbh : b = hd
      · rw [hbh, List.indexOf_cons_self, List.indexOf_cons_ne tl (fun h => hah h.symm)]
        exact Nat.succ_pos _
      · have hb2 : b ∈ tl := (List.mem_cons.mp hb).resolve_left hbh
        rw [List.indexOf_cons_ne tl (fun h => hah h.symm),
          List.indexOf_cons_ne tl (fun h => hbh h.symm)]
        exact Nat.succ_lt_succ
          (ih htl (fun x hx => hself x (List.mem_cons_of_mem hd hx)) hdep ha2 hb2)

/-- Every node of a cycle written as a closed chain has a successor within
the cycle. -/
theorem chain_mem_successor {dep : String → String → Bool} :
    ∀ (rest : List String) (a z : String),
      List.Chain (fun x y => dep x y = true) a (rest ++ [z]) →
      ∀ x ∈ a :: rest, ∃ y, (y ∈ rest ∨ y = z) ∧ dep x y = true := by
  intro rest
  induction rest with
  | nil =>
    intro a z hchain x hx
    rcases List.chain_cons.mp hchain with ⟨haz, _⟩
    rcases List.mem_cons.mp hx with rfl | hx'
    · exact ⟨z, Or.inr rfl, haz⟩
    · cases hx'
  | cons b rest ih =>
    intro a z hchain x hx
    rcases List.chain_cons.mp hchain with ⟨hab, hchain'⟩
    rcases List.mem_cons.mp hx with rfl | hx'
    · exact ⟨b, Or.inl (List.mem_cons_self b rest), hab⟩
    · rcases ih b z hchain' x hx' with ⟨y, hy | hy, hdep⟩
      · exact ⟨y, Or.inl (List.mem_cons_of_mem b hy), hdep⟩
      · exact ⟨y, Or.inr hy, hdep⟩

/-! ### Properties of the dependency edges -/

/-- Characterization of membership in the registered edge list. -/
theorem mem_dependencyEdges {documents : List DocumentNode} {a b : String} :
    (a, b) ∈ dependencyEdges documents
      ↔ ∃ documentA ∈ documents, ∃ documentB ∈ documents,
          documentA.name = a ∧ documentB.name = b ∧ documentB.name ≠ documentA.name
            ∧ isDependentOn documentA documentB = true := by
  simp only [dependencyEdges, List.mem_flatMap, List.mem_map, List.mem_filter,
    Bool.and_eq_true, bne_iff_ne, ne_eq]
  constructor
  · rintro ⟨documentA, hA, documentB, ⟨hB, hne, hdep⟩, heq⟩
    have h1 : documentA.name = a := congrArg Prod.fst heq
    have h2 : documentB.name = b := congrArg Prod.snd heq
    exact ⟨documentA, hA, documentB, hB, h1, h2, hne, hdep⟩
  · rintro ⟨documentA, hA, documentB, hB, h1, h2, hne, hdep⟩
    exact ⟨documentA, hA, documentB, ⟨hB, hne, hdep⟩, by rw [h1, h2]⟩

/-- The graph relation holds exactly on registered edges. -/
theorem depFn_iff {documents : List DocumentNode} {a b : String} :
    depFn documents a b = true ↔ (a, b) ∈ dependencyEdges documents := by
  simp [depFn, List.contains, List.elem_iff]

/-- Both endpoints of a graph edge are names of documents of the corpus. -/
theorem depFn_mem_names {documents : List DocumentNode} {a b : String}
    (h : depFn documents a b = true) :
    a ∈ documents.map DocumentNode.name ∧ b ∈ documents.map DocumentNode.name := by
  rcases mem_dependencyEdges.mp (depFn_iff.mp h) with
    ⟨documentA, hA, documentB, hB, h1, h2, _, _⟩
  exact ⟨h1 ▸ List.mem_map_of_mem DocumentNode.name hA,
    h2 ▸ List.mem_map_of_mem DocumentNode.name hB⟩

/-! ### Properties of node-data lookup and assembly -/

/-- A name occurring among the document names is found by `find?`, and the
found document carries that name. -/
theorem find?_name_eq {documents : List DocumentNode} {n : String}
    (h : n ∈ documents.map DocumentNode.name) :
    ∃ d, (documents.find? fun document => document.name == n) = some d ∧ d.name = n := by
  rcases List.mem_map.mp h with ⟨d, hd, hn⟩
  have hsome : ((documents.find? fun document => document.name == n).isSome) :=
    List.find?_isSome.mpr ⟨d, hd, by simp [hn]⟩
  rcases Option.isSome_iff_exists.mp hsome with ⟨d2, hd2⟩
  refine ⟨d2, hd2, ?_⟩
  simpa using List.find?_some hd2

/-- Node-data lookup drops nothing and reorders nothing: the names of the
looked-up documents are the order itself. -/
theorem orderedDocuments_map_name {documents : List DocumentNode} :
    ∀ {order : List String}, (∀ n ∈ order, n ∈ documents.map DocumentNode.name) →
      (orderedDocuments documents order).map DocumentNode.name = order := by
  intro order
  induction order with
  | nil => intro _; rfl
  | cons n os ih =>
    intro hsub
    rcases find?_name_eq (hsub n (List.mem_cons_self n os)) with ⟨d, hfind, hname⟩
    simp only [orderedDocuments, List.filterMap_cons, hfind]
    simp only [List.map_cons, hname]
    have := ih (fun m hm => hsub m (List.mem_cons_of_mem n hm))
    simp only [orderedDocuments] at this
    rw [this]

/-- Once the accumulator is a real schema (index positive), the rest of the
reduce is a left fold of extensions. -/
theorem assembleFrom_succ :
    ∀ (rest : List DocumentNode) (schema : SchemaExpr) (index : Nat),
      assembleFrom (some schema) (index + 1) rest
        = some (rest.foldl (fun s d => SchemaExpr.extendSchema (some s) d) schema) := by
  intro rest
  induction rest with
  | nil => intro schema index; rfl
  | cons document rest ih =>
    intro schema index
    simp only [assembleFrom, List.foldl_cons]
    rw [show ((index + 1 : Nat) == 0) = false by simp]
    exact ih _ _

/-- The assembly fold over a non-empty document sequence: the head is built
from scratch, every later document extends the accumulated schema. -/
theorem assembleSchema_cons (document : DocumentNode) (rest : List DocumentNode) :
    assembleSchema (document :: rest)
      = some (rest.foldl (fun schema d => SchemaExpr.extendSchema (some schema) d)
          (SchemaExpr.buildASTSchema document)) := by
  simp only [assembleSchema, assembleFrom]
  rw [show ((0 : Nat) == 0) = true by rfl]
  exact assembleFrom_succ rest _ 0

/-! ### Claim theorems -/

/-- C1: for every document set whose dependency graph contains a cycle
(given as a closed chain of edges from `a` through `rest` back to `a`),
the build fails with a cycle error whose implicated-document list contains
every document on the cycle; in particular no schema is assembled or
written. -/
theorem cycle_build_fails_with_cycle_error
    (validateSchema : Option SchemaExpr → List String)
    (printSchema : Option SchemaExpr → String)
    (documents : List DocumentNode) (a : String) (rest : List String)
    (hnodup : (documents.map DocumentNode.name).Nodup)
    (hcyc : List.Chain (fun x y => depFn documents x y = true) a (rest ++ [a])) :
    ∃ implicated,
      buildPipeline validateSchema printSchema documents = .cycleError implicated
        ∧ ∀ x ∈ a :: rest, x ∈ implicated := by
  have hsucc : ∀ x ∈ a :: rest, ∃ y ∈ a :: rest, depFn documents x y = true := by
    intro x hx
    rcases chain_mem_successor rest a a hcyc x hx with ⟨y, hy | hy, hdep⟩
    · exact ⟨y, List.mem_cons_of_mem a hy, hdep⟩
    · refine ⟨y, ?_, hdep⟩
      rw [hy]
      exact List.mem_cons_self a rest
  have hsub : ∀ x ∈ a :: rest, x ∈ documents.map DocumentNode.name := by
    intro x hx
    rcases hsucc x hx with ⟨y, _, hdep⟩
    exact (depFn_mem_names hdep).1
  rcases topoOrderAux_cycle_error (List.cons_ne_nil a rest) hsucc
      (documents.map DocumentNode.name).length hsub with ⟨implicated, heq, himp⟩
  refine ⟨implicated, ?_, himp⟩
  simp only [buildPipeline, topoOrder, if_pos hnodup, heq]

/-- Witness for C1: the genuine 2-cycle of Scenario C (docX extends a type
defined only in docY and vice versa) makes the build fail with a cycle
error naming both documents. -/
theorem cycle_build_fails_with_cycle_error_witness :
    ∃ implicated,
      buildPipeline (fun _ => []) (fun _ => "") [docX, docY] = .cycleError implicated
        ∧ ∀ x ∈ ["x.graphql", "y.graphql"], x ∈ implicated :=
  cycle_build_fails_with_cycle_error (fun _ => []) (fun _ => "") [docX, docY]
    "x.graphql" ["y.graphql"] (by decide)
    (List.Chain.cons (by decide) (List.Chain.cons (by decide) List.Chain.nil))

/-- C2: a successful merge order is a permutation of the document names in
which the target of every dependency edge precedes its source; node-data
lookup preserves that order exactly; and the assembly fold builds the first
document from scratch and applies every subsequent document as an
incremental extension of the accumulated schema, in order. -/
theorem acyclic_merge_order_and_fold
    (documents : List DocumentNode) (order : List String)
    (hok : topoOrder (depFn documents) (documents.map DocumentNode.name) = .ok order) :
    order.Perm (documents.map DocumentNode.name)
      ∧ (∀ a b, depFn documents a b = true → order.indexOf b < order.indexOf a)
      ∧ (orderedDocuments documents order).map DocumentNode.name = order
      ∧ ∀ document rest, orderedDocuments documents order = document :: rest →
          assembleSchema (document :: rest)
            = some (rest.foldl (fun schema d => SchemaExpr.extendSchema (some schema) d)
                (SchemaExpr.buildASTSchema document)) := by
  simp only [topoOrder] at hok
  have hperm := topoOrderAux_ok_perm _ hok
  have hpw := topoOrderAux_ok_pairwise _ hok
  have hself := topoOrderAux_ok_no_self _ hok
  refine ⟨hperm, ?_, ?_, ?_⟩
  · intro a b hdep
    have hmem := depFn_mem_names hdep
    exact pairwise_indexOf_lt order hpw hself hdep
      (hperm.mem_iff.mpr hmem.1) (hperm.mem_iff.mpr hmem.2)
  · exact orderedDocuments_map_name (fun n hn => hperm.mem_iff.mp hn)
  · intro document rest _
    exact assembleSchema_cons document rest

/-- Witness for C2: Scenario A (docExt extends the Query type defined in
docBase) orders docBase first and assembles its schema by building docBase
and extending with docExt. -/
theorem acyclic_merge_order_and_fold_witness :
    (["base.graphql", "ext.graphql"] : List String).Perm
        ([docBase, docExt].map DocumentNode.name)
      ∧ assembleSchema [docBase, docExt]
          = some (SchemaExpr.extendSchema (some (SchemaExpr.buildASTSchema docBase)) docExt) := by
  have h := acyclic_merge_order_and_fold [docBase, docExt]
    ["base.graphql", "ext.graphql"] rfl
  exact ⟨h.1, h.2.2.2 docBase [docExt] rfl⟩

/-- C3: the dependency classifier is exactly the disjunction of
`hasExtensionsFor` and `hasTypesFor`, and since the build compares only
pairs whose document names differ, no registered edge is a self-edge. -/
theorem classifier_disjunction_and_no_self_edges (documents : List DocumentNode) :
    (∀ documentA documentB, isDependentOn documentA documentB
        = (hasExtensionsFor documentA documentB || hasTypesFor documentA documentB))
      ∧ ∀ e ∈ dependencyEdges documents, e.1 ≠ e.2 := by
  refine ⟨fun _ _ => rfl, ?_⟩
  rintro ⟨a, b⟩ he
  rcases mem_dependencyEdges.mp he with ⟨dA, _, dB, _, h1, h2, hne, _⟩
  intro hab
  exact hne (by rw [h1, h2]; exact hab.symm)

/-- Witness for C3: the single edge of Scenario A is not a self-edge. -/
theorem classifier_disjunction_and_no_self_edges_witness :
    ("ext.graphql", "base.graphql") ∈ dependencyEdges [docBase, docExt]
      ∧ ("ext.graphql", "base.graphql").1 ≠ ("ext.graphql", "base.graphql").2 :=
  ⟨by decide, (classifier_disjunction_and_no_self_edges [docBase, docExt]).2 _ (by decide)⟩

/-- C6: a non-empty validation result becomes a validation failure carrying
every violation message (nothing is written), and a written output can only
arise from a schema whose validation result was empty, the written content
being exactly that schema's printed form. -/
theorem validation_failure_blocks_output
    (validateSchema : Option SchemaExpr → List String)
    (printSchema : Option SchemaExpr → String) (documents : List DocumentNode) :
    (∀ validationErrors printed, validationErrors ≠ ([] : List String) →
        emitStage validationErrors printed = .validationFailure validationErrors)
      ∧ ∀ content, buildPipeline validateSchema printSchema documents = .written content →
          ∃ schema, validateSchema schema = [] ∧ content = printSchema schema := by
  constructor
  · intro validationErrors printed hne
    have hlen : (validationErrors.length != 0) = true := by
      simp [bne_iff_ne, List.length_eq_zero, hne]
    simp only [emitStage, if_pos hlen]
  · intro content h
    simp only [buildPipeline] at h
    split at h
    · split at h
      · cases h
      · next order hord =>
        simp only [emitStage] at h
        split at h
        · cases h
        · next hlen =>
          cases h
          refine ⟨assembleSchema (orderedDocuments documents order), ?_, rfl⟩
          have h0 : (validateSchema
              (assembleSchema (orderedDocuments documents order))).length = 0 := by
            simpa using hlen
          exact List.length_eq_zero.mp h0
    · cases h

/-- Witness for C6: a single violation message yields a validation failure
reporting it. -/
theorem validation_failure_blocks_output_witness :
    emitStage ["boom"] "printed" = .validationFailure ["boom"] :=
  (validation_failure_blocks_output (fun _ => []) (fun _ => "") []).1 ["boom"] "printed"
    (by decide)

/-- C7 (code evaluated at the failing input): the watch callback guard is
inverted — a change event for the schema document "a.graphql" matches
`fileFilter` and therefore triggers no rebuild, while the non-schema file
"output.txt" does trigger one. -/
theorem watch_filter_inverted :
    fileFilter "a.graphql" = true ∧ watchCallbackRebuilds "a.graphql" = false
      ∧ fileFilter "output.txt" = false ∧ watchCallbackRebuilds "output.txt" = true := by
  refine ⟨by decide, by decide, by decide, by decide⟩

/-- C8: distinct documents sharing one name make the node set fail fast
with the fatal duplicate-name configuration error (modelled from the spec;
see `buildPipeline`). -/
theorem duplicate_name_fails_fast
    (validateSchema : Option SchemaExpr → List String)
    (printSchema : Option SchemaExpr → String) (documents : List DocumentNode)
    (hdup : ¬ (documents.map DocumentNode.name).Nodup) :
    buildPipeline validateSchema printSchema documents = .duplicateNameError := by
  simp only [buildPipeline, if_neg hdup]

/-- Witness for C8: two distinct documents named "a.graphql". -/
theorem duplicate_name_fails_fast_witness :
    buildPipeline (fun _ => []) (fun _ => "")
        [⟨"a.graphql", []⟩, ⟨"a.graphql", [.directiveDefinition "deprecated"]⟩]
      = .duplicateNameError :=
  duplicate_name_fails_fast (fun _ => []) (fun _ => "") _ (by decide)

/-- C9: the merge order is a function of the dependency graph alone — two
corpora with the same node names (in discovery order) and extensionally
equal edge relations produce the same merge order; together with the
pipeline being a pure function of the document list, repeated builds over
a fixed corpus are identical. -/
theorem merge_order_function_of_graph
    (documentsA documentsB : List DocumentNode)
    (hnames : documentsA.map DocumentNode.name = documentsB.map DocumentNode.name)
    (hdep : ∀ a b, depFn documentsA a b = depFn documentsB a b) :
    topoOrder (depFn documentsA) (documentsA.map DocumentNode.name)
      = topoOrder (depFn documentsB) (documentsB.map DocumentNode.name) := by
  have h : depFn documentsA = depFn documentsB :=
    funext fun a => funext fun b => hdep a b
  rw [h, hnames]

/-- Witness for C9: two one-document corpora with the same name but
different (dependency-irrelevant) contents get the same merge order. -/
theorem merge_order_function_of_graph_witness :
    topoOrder (depFn [docScalarS]) ([docScalarS].map DocumentNode.name)
      = topoOrder (depFn [docScalarT]) ([docScalarT].map DocumentNode.name) :=
  merge_order_function_of_graph [docScalarS] [docScalarT] rfl
    (fun a b => by
      have h1 : dependencyEdges [docScalarS] = [] := rfl
      have h2 : dependencyEdges [docScalarT] = [] := rfl
      simp only [depFn, h1, h2])

/-- C10: with zero candidate documents the fold returns its initial null
accumulator, and the pipeline proceeds straight to validating and printing
that null schema — there is no dedicated empty-input error. -/
theorem empty_input_null_schema
    (validateSchema : Option SchemaExpr → List String)
    (printSchema : Option SchemaExpr → String) :
    assembleSchema [] = none
      ∧ buildPipeline validateSchema printSchema []
          = emitStage (validateSchema none) (printSchema none) :=
  ⟨rfl, rfl⟩

/-! ### Kind-string arithmetic of the classifier -/

/-- The definition-kind stem is "Schema" exactly for schema definitions. -/
theorem defStem_schema_iff (d : DefinitionNode) :
    definitionStem d.kind = "Schema" ↔ d.kind = "SchemaDefinition" := by
  cases d <;> simp only [DefinitionNode.kind] <;> decide

/-- The extension-kind stem is "Schema" exactly for schema extensions. -/
theorem extStem_schema_iff (e : DefinitionNode) :
    extensionStem e.kind = "Schema" ↔ e.kind = "SchemaExtension" := by
  cases e <;> simp only [DefinitionNode.kind] <;> decide

/-- Stem equality between a non-schema extension and a definition is the
same as having a common explicit category. -/
theorem stem_eq_iff_category (e d : DefinitionNode) :
    ((definitionStem d.kind = extensionStem e.kind) ∧ e.kind ≠ "SchemaExtension")
      ↔ ∃ c, extensionCategory e = some c ∧ definitionCategory d = some c := by
  cases e <;> cases d <;>
    (simp only [DefinitionNode.kind, extensionCategory, definitionCategory]) <;> decide

/-- Every type-system extension other than a schema extension has a target
name. -/
theorem ext_nameValue_some (e : DefinitionNode)
    (hext : isTypeSystemExtensionNode e = true) (hne : e.kind ≠ "SchemaExtension") :
    ∃ n, e.nameValue = some n := by
  cases e <;> first
    | exact ⟨_, rfl⟩
    | exact absurd rfl hne
    | simp [isTypeSystemExtensionNode] at hext

/-- A node with the schema-extension kind is a type-system extension with
stem "Schema". -/
theorem schemaExtension_props (e : DefinitionNode) (h : e.kind = "SchemaExtension") :
    isTypeSystemExtensionNode e = true ∧ extensionStem e.kind = "Schema" := by
  cases e <;> first
    | (simp only [DefinitionNode.kind] at h; exact absurd h (by decide))
    | (simp only [DefinitionNode.kind]; exact ⟨rfl, rfl⟩)

/-- A node with the schema-definition kind is a type-system definition with
stem "Schema". -/
theorem schemaDefinition_props (d : DefinitionNode) (h : d.kind = "SchemaDefinition") :
    isTypeSystemDefinitionNode d = true ∧ definitionStem d.kind = "Schema" := by
  cases d <;> first
    | (simp only [DefinitionNode.kind] at h; exact absurd h (by decide))
    | (simp only [DefinitionNode.kind]; exact ⟨rfl, rfl⟩)

/-- A node with an extension category is a type-system extension. -/
theorem extCategory_isExt (e : DefinitionNode) (c : TypeSystemCategory)
    (h : extensionCategory e = some c) : isTypeSystemExtensionNode e = true := by
  cases e <;> simp_all [extensionCategory, isTypeSystemExtensionNode]

/-- A node with a definition category is a type-system definition. -/
theorem defCategory_isDef (d : DefinitionNode) (c : TypeSystemCategory)
    (h : definitionCategory d = some c) : isTypeSystemDefinitionNode d = true := by
  cases d <;> simp_all [definitionCategory, isTypeSystemDefinitionNode, isTypeDefinitionNode]

/-- C4: hasExtensionsFor holds exactly when documentA declares a schema
extension and documentB a schema definition (names irrelevant), or
documentA declares a type extension whose category and target name match a
same-category definition in documentB; it is false when neither condition
holds. -/
theorem hasExtensionsFor_iff_spec (documentA documentB : DocumentNode) :
    hasExtensionsFor documentA documentB = true
      ↔ SpecHasExtensionsFor documentA documentB := by
  simp only [hasExtensionsFor, List.any_eq_true, List.mem_filter]
  constructor
  · rintro ⟨e, ⟨he, hext⟩, d, ⟨hd, hdef⟩, hcond⟩
    rw [Bool.or_eq_true, Bool.and_eq_true, Bool.and_eq_true] at hcond
    rcases hcond with ⟨hds, hes⟩ | ⟨hstem, hname⟩
    · rw [beq_iff_eq] at hds hes
      exact Or.inl ⟨⟨e, he, (extStem_schema_iff e).mp hes⟩,
        ⟨d, hd, (defStem_schema_iff d).mp hds⟩⟩
    · rw [beq_iff_eq] at hstem hname
      by_cases hsch : e.kind = "SchemaExtension"
      · have hes : extensionStem e.kind = "Schema" := by rw [hsch]; decide
        have hds : definitionStem d.kind = "Schema" := by rw [hstem, hes]
        exact Or.inl ⟨⟨e, he, hsch⟩, ⟨d, hd, (defStem_schema_iff d).mp hds⟩⟩
      · rcases ext_nameValue_some e hext hsch with ⟨n, hn⟩
        rcases (stem_eq_iff_category e d).mp ⟨hstem, hsch⟩ with ⟨c, hce, hcd⟩
        refine Or.inr ⟨e, he, d, hd, c, hce, hcd, n, hn, ?_⟩
        rw [hname, hn]
  · rintro (⟨⟨e, he, hke⟩, ⟨d, hd, hkd⟩⟩ | ⟨e, he, d, hd, c, hce, hcd, n, hne2, hnd⟩)
    · have hpe := schemaExtension_props e hke
      have hpd := schemaDefinition_props d hkd
      refine ⟨e, ⟨he, hpe.1⟩, d, ⟨hd, hpd.1⟩, ?_⟩
      rw [Bool.or_eq_true]
      refine Or.inl ?_
      rw [Bool.and_eq_true, beq_iff_eq, beq_iff_eq]
      exact ⟨hpd.2, hpe.2⟩
    · have hexte := extCategory_isExt e c hce
      have hdefd := defCategory_isDef d c hcd
      have hstem := (stem_eq_iff_category e d).mpr ⟨c, hce, hcd⟩
      refine ⟨e, ⟨he, hexte⟩, d, ⟨hd, hdefd⟩, ?_⟩
      rw [Bool.or_eq_true]
      refine Or.inr ?_
      rw [Bool.and_eq_true, beq_iff_eq, beq_iff_eq]
      exact ⟨hstem.1, by rw [hnd, hne2]⟩

/-! ### Reference extraction matches its specification -/

/-- The accumulating fold of the extraction loop flattens to per-definition
contributions. -/
theorem collectReferences_flatMap (document : DocumentNode) :
    collectReferences document
      = (document.definitions.flatMap definitionTypeRefs,
         document.definitions.flatMap definitionDirectiveRefs) := by
  have haux : ∀ (defs : List DefinitionNode) (t d : List String),
      defs.foldl (fun acc definition =>
          (acc.1 ++ definitionTypeRefs definition,
           acc.2 ++ definitionDirectiveRefs definition)) (t, d)
        = (t ++ defs.flatMap definitionTypeRefs,
           d ++ defs.flatMap definitionDirectiveRefs) := by
    intro defs
    induction defs with
    | nil => intro t d; simp
    | cons x xs ih => intro t d; simp [ih, List.flatMap_cons]
  simpa using haux document.definitions [] []

/-- Membership in one definition's typeNames contribution, characterized
by the claim's accessors. -/
theorem mem_definitionTypeRefs {d : DefinitionNode} {n : String} :
    n ∈ definitionTypeRefs d
      ↔ n ∈ objectInterfacesOf d
        ∨ (∃ f ∈ outputFieldsOf d,
            (∃ a ∈ f.arguments, unwrapName a.type = n) ∨ n = unwrapName f.type)
        ∨ (∃ v ∈ inputFieldsOf d, unwrapName v.type = n)
        ∨ (∃ t ∈ unionMembersOf d, unwrapName t = n) := by
  cases d <;>
    simp [definitionTypeRefs, objectInterfacesOf, outputFieldsOf, inputFieldsOf,
      unionMembersOf, List.mem_append, List.mem_flatMap, List.mem_map]

/-- Membership in one definition's directiveNames contribution,
characterized by the claim's accessors. -/
theorem mem_definitionDirectiveRefs {d : DefinitionNode} {n : String} :
    n ∈ definitionDirectiveRefs d
      ↔ n ∈ typeDefinitionDirectivesOf d
        ∨ (∃ f ∈ outputFieldsOf d, n ∈ f.directives)
        ∨ (∃ v ∈ inputFieldsOf d, n ∈ v.directives)
        ∨ (∃ v ∈ enumValuesOf d, n ∈ v.directives) := by
  cases d <;>
    simp [definitionDirectiveRefs, typeDefinitionDirectivesOf, outputFieldsOf,
      inputFieldsOf, enumValuesOf, List.mem_append, List.mem_flatMap]

/-- C5: the reference extraction inside hasTypesFor collects into typeNames
exactly the unwrapped field and field-argument types of
object/interface/input-object definitions and extensions, the implemented
interfaces of object definitions and extensions, and the unwrapped union
members; and into directiveNames exactly the directives of type-shaped
definitions, the field-level directives, and the enum-value directives of
enum definitions and extensions. -/
theorem reference_extraction_matches_spec (document : DocumentNode) (n : String) :
    (n ∈ (collectReferences document).1 ↔ SpecTypeRef document n)
      ∧ (n ∈ (collectReferences document).2 ↔ SpecDirectiveRef document n) := by
  rw [collectReferences_flatMap]
  constructor
  · simp only [List.mem_flatMap, SpecTypeRef]
    exact ⟨fun ⟨d, hd, hn⟩ => ⟨d, hd, mem_definitionTypeRefs.mp hn⟩,
      fun ⟨d, hd, hn⟩ => ⟨d, hd, mem_definitionTypeRefs.mpr hn⟩⟩
  · simp only [List.mem_flatMap, SpecDirectiveRef]
    exact ⟨fun ⟨d, hd, hn⟩ => ⟨d, hd, mem_definitionDirectiveRefs.mp hn⟩,
      fun ⟨d, hd, hn⟩ => ⟨d, hd, mem_definitionDirectiveRefs.mpr hn⟩⟩
